import Mathlib

/-!
Shallow embedding of the rust-ipfs bitswap engine
(`src/bitswap/src/ledger.rs` and `src/bitswap/src/bitswap.rs`).

Rust `HashMap` is modelled as an association list with no duplicate keys
(`insert` = erase-then-append, matching replacement semantics; the hash-map
iteration order is unspecified in Rust, so list order carries no meaning and
properties are stated pointwise via lookups).  Rust `HashSet` is a duplicate
free list.  `i32` priorities are modelled as `Int` (no arithmetic is ever
performed on them).  `PeerId` and one-shot channel endpoints are opaque and
modelled as `Nat` identifiers; "sending" on a channel is modelled by
returning the sent value in an output list.

Types defined in repository modules that are not part of the analysed
sources (`block.rs`, `prefix.rs`, `error.rs`, `stat.rs`, `protocol.rs`,
`bitswap_pb.rs`, and the external `cid` crate) are modelled from the spec;
each such definition carries a doc comment saying so.
-/

/-- Modelled from the spec: CID prefix `(version, codec, multihash type,
multihash length)` from `prefix.rs` (the source file is not among the
analysed sources).  The wire form is four varints; we keep the four numbers. -/
structure Pfx where
  version : Nat
  codec : Nat
  mhType : Nat
  mhLen : Nat
deriving DecidableEq, Repr

/-- Modelled from the spec: a CID is an opaque identifier supporting equality
and round-trip to a canonical byte form with a parseable prefix (spec §3).
We model it as its parseable prefix together with a multihash digest. -/
structure Cid where
  pre : Pfx
  digest : List Nat
deriving DecidableEq, Repr

/-- Modelled from the spec: `Block { cid, data }` from `block.rs` (spec §3). -/
structure Block where
  cid : Cid
  data : List Nat
deriving DecidableEq, Repr

/-- `pub type Priority = i32;` -/
abbrev Priority := Int

/-- Association-list model of `HashMap`: lookup of a key. -/
def alLookup {α β : Type} [DecidableEq α] : List (α × β) → α → Option β
  | [], _ => none
  | kv :: rest, a => if kv.1 = a then some kv.2 else alLookup rest a

/-- Association-list model of `HashMap::insert`: erase the key, then append
the new binding (replacement semantics; order is immaterial for hash maps). -/
def alInsert {α β : Type} [DecidableEq α] (l : List (α × β)) (a : α) (b : β) :
    List (α × β) :=
  (l.filter (fun kv => kv.1 ≠ a)) ++ [(a, b)]

/-- Association-list model of `HashMap::remove` (the removed value is not needed). -/
def alErase {α β : Type} [DecidableEq α] (l : List (α × β)) (a : α) : List (α × β) :=
  l.filter (fun kv => kv.1 ≠ a)

/-- List model of `HashSet::insert`. -/
def setInsert {α : Type} [DecidableEq α] (l : List α) (a : α) : List α :=
  if a ∈ l then l else l ++ [a]

/-- A bitswap message (`ledger.rs`, struct `Message`). -/
structure Message where
  /-- List of wanted blocks. -/
  want : List (Cid × Priority)
  /-- List of blocks to cancel. -/
  cancel : List Cid
  /-- List of blocks which peer has. -/
  haves : List Cid
  /-- List of blocks which peer has not. -/
  dont_haves : List Cid
  /-- Whether it is the full list of wanted blocks. -/
  full : Bool
  /-- List of blocks to send. -/
  blocks : List Block
deriving DecidableEq, Repr

/-- `Message::default()` (derived `Default`): all collections empty, `full = false`. -/
def Message.init : Message :=
  { want := [], cancel := [], haves := [], dont_haves := [], full := false, blocks := [] }

/-- `Message::is_empty`: `want`, `cancel` and `blocks` all empty
(`haves` / `dont_haves` do not count). -/
def Message.is_empty (m : Message) : Bool :=
  m.want.isEmpty && m.cancel.isEmpty && m.blocks.isEmpty

/-- `Message::add_block`: push onto `blocks`. -/
def Message.add_block (m : Message) (b : Block) : Message :=
  { m with blocks := m.blocks ++ [b] }

/-- `Message::remove_block`: retain blocks whose cid differs. -/
def Message.remove_block (m : Message) (c : Cid) : Message :=
  { m with blocks := m.blocks.filter (fun b => b.cid ≠ c) }

/-- `Message::want_block`: insert `(cid, priority)` into the `want` map. -/
def Message.want_block (m : Message) (c : Cid) (p : Priority) : Message :=
  { m with want := alInsert m.want c p }

/-- `Message::cancel_block`: insert `cid` into the `cancel` set. -/
def Message.cancel_block (m : Message) (c : Cid) : Message :=
  { m with cancel := setInsert m.cancel c }

/-- `Message::remove_want_block`: remove `cid` from the `want` map. -/
def Message.remove_want_block (m : Message) (c : Cid) : Message :=
  { m with want := alErase m.want c }

/-- `Message::have_block`: insert into `haves`. -/
def Message.have_block (m : Message) (c : Cid) : Message :=
  { m with haves := setInsert m.haves c }

/-- `Message::dont_have_block`: insert into `dont_haves`. -/
def Message.dont_have_block (m : Message) (c : Cid) : Message :=
  { m with dont_haves := setInsert m.dont_haves c }

/-- The per-peer `Ledger` (`ledger.rs`). -/
structure Ledger where
  /-- The list of wanted blocks sent to the peer. -/
  sent_want_list : List (Cid × Priority)
  /-- The list of wanted blocks received from the peer. -/
  received_want_list : List (Cid × Priority)
  /-- Queued message. -/
  message : Message
deriving DecidableEq, Repr

/-- `Ledger::new()` = `Ledger::default()`. -/
def Ledger.new : Ledger :=
  { sent_want_list := [], received_want_list := [], message := Message.init }

/-- `Ledger::add_block`. -/
def Ledger.add_block (l : Ledger) (b : Block) : Ledger :=
  { l with message := l.message.add_block b }

/-- `Ledger::want_block`. -/
def Ledger.want_block (l : Ledger) (c : Cid) (p : Priority) : Ledger :=
  { l with message := l.message.want_block c p }

/-- `Ledger::cancel_block`. -/
def Ledger.cancel_block (l : Ledger) (c : Cid) : Ledger :=
  { l with message := l.message.cancel_block c }

/-- `Ledger::wantlist`: snapshot of `received_want_list` (order unspecified). -/
def Ledger.wantlist (l : Ledger) : List (Cid × Priority) :=
  l.received_want_list

/-- `Ledger::send`: if the queued message is empty return `none` and leave the
ledger unchanged; otherwise remove every cancelled cid from `sent_want_list`,
insert every `(cid, priority)` of `want`, and move the queued message out. -/
def Ledger.send (l : Ledger) : Option Message × Ledger :=
  if l.message.is_empty then (none, l)
  else
    let s1 := l.message.cancel.foldl (fun acc c => alErase acc c) l.sent_want_list
    let s2 := l.message.want.foldl (fun acc kv => alInsert acc kv.1 kv.2) s1
    (some l.message, { l with sent_want_list := s2, message := Message.init })

/-- Ledger operations on the queued message, as issued by the engine between
two commits: `want_block` and `cancel_block` (`bitswap.rs` drives exactly
these two on user requests and block receptions). -/
inductive LOp where
  | want (c : Cid) (p : Priority)
  | cancel (c : Cid)
deriving DecidableEq, Repr

/-- Apply one `LOp` to a ledger. -/
def Ledger.applyOp (l : Ledger) : LOp → Ledger
  | .want c p => l.want_block c p
  | .cancel c => l.cancel_block c

/-- Apply a sequence of `LOp`s to a ledger, oldest first. -/
def Ledger.applyOps (l : Ledger) (ops : List LOp) : Ledger :=
  ops.foldl Ledger.applyOp l

-- Sample concrete values used by witness theorems.

/-- A sample cid (CIDv1, raw codec, sha2-256-style prefix, 2-byte digest). -/
def cidA : Cid := { pre := { version := 1, codec := 85, mhType := 18, mhLen := 2 }, digest := [3, 7] }

/-- A second sample cid. -/
def cidB : Cid := { pre := { version := 1, codec := 85, mhType := 18, mhLen := 2 }, digest := [9, 1] }

/-- A sample block carrying `cidA`. -/
def blkA : Block := { cid := cidA, data := [10, 20] }

/-- First-some choice on options (used to state "`want` overrides `cancel`"
lookup characterisations). -/
def optOr {β : Type} (x y : Option β) : Option β :=
  match x with
  | some b => some b
  | none => y

/-- A concrete ledger with a queued want, a queued cancel and a previously
sent want, used by witness theorems. -/
def ledgerW : Ledger :=
  { sent_want_list := [(cidB, 5)],
    received_want_list := [],
    message := { Message.init with want := [(cidA, 2)], cancel := [cidB] } }

/-- Modelled from the spec: opaque stable peer identifier (spec glossary);
`PeerId` comes from the external libp2p crate. -/
abbrev PeerId := Nat

/-- Modelled from the spec: a one-shot reply channel endpoint
(`oneshot::Sender`); sends are modelled by returning the sent value paired
with the channel's identifier. -/
abbrev ChanId := Nat

/-- Modelled from the spec: per-peer `Stats` counters from `stat.rs`
(incoming unique/duplicate bytes, outgoing blocks; spec §2, §4.3.3). -/
structure Stats where
  incoming_unique : Nat
  incoming_duplicate : Nat
  outgoing : Nat
deriving DecidableEq, Repr

/-- `Stats::default()`. -/
def Stats.init : Stats := { incoming_unique := 0, incoming_duplicate := 0, outgoing := 0 }

/-- Modelled from the spec: fleet aggregation adds stats field-wise (§4.3.2). -/
def Stats.add_assign (a b : Stats) : Stats :=
  { incoming_unique := a.incoming_unique + b.incoming_unique,
    incoming_duplicate := a.incoming_duplicate + b.incoming_duplicate,
    outgoing := a.outgoing + b.outgoing }

/-- Modelled from the spec: error taxonomy of `error.rs` (spec §7). -/
inductive BitswapError where
  | InvalidData
  | BlockStoreError
  | Closing
  | TransportError
deriving DecidableEq, Repr

/-- Modelled from the spec: peer lifecycle events of `protocol.rs`
(`NewPeer` | `DeadPeer` | `Blocks(peer, blocks)`, spec §4.3). -/
inductive ProtocolEvent where
  | NewPeer (p : PeerId)
  | DeadPeer (p : PeerId)
  | Blocks (p : PeerId) (bs : List Block)
deriving DecidableEq, Repr

/-- The control commands (`bitswap.rs`, enum `ControlCommand`). -/
inductive ControlCommand where
  | WantBlock (c : Cid) (tx : ChanId)
  | CancelBlock (c : Cid) (tx : ChanId)
  | WantList (p : Option PeerId) (tx : ChanId)
  | Peers (tx : ChanId)
  | Stats (tx : ChanId)
deriving DecidableEq, Repr

/-- A value sent on a one-shot reply channel (each constructor records the
channel and the `Ok(..)` payload; error payloads are never sent by the code). -/
inductive Reply where
  | block (tx : ChanId) (b : Block)
  | ack (tx : ChanId)
  | wantlist (tx : ChanId) (l : List (Cid × Priority))
  | peers (tx : ChanId) (ps : List PeerId)
  | stats (tx : ChanId) (st : Stats)
deriving DecidableEq, Repr

/-- The engine-owned state of `struct Bitswap` (`bitswap.rs`).  The swarm and
block-store handles and the channel endpoints are external capabilities:
outbound messages, scheduled block-store lookups and reply-channel sends are
returned as explicit outputs instead. -/
structure Bitswap where
  /-- Wanted blocks: cid → attached one-shot reply senders. -/
  wanted_blocks : List (Cid × List ChanId)
  /-- Ledger per connected peer. -/
  connected_peers : List (PeerId × Ledger)
  /-- Statistics related to peers. -/
  stats : List (PeerId × Stats)
deriving DecidableEq, Repr

/-- `Bitswap::local_wantlist`: the keys of `wanted_blocks`. -/
def Bitswap.local_wantlist (s : Bitswap) : List Cid :=
  s.wanted_blocks.map Prod.fst

/-- `Bitswap::send_message_to`: update the peer's outgoing-block counter when
a stats entry exists, then emit the message (the spawned transmission task is
modelled by the emitted `(peer, message)` output). -/
def Bitswap.send_message_to (s : Bitswap) (p : PeerId) (m : Message) :
    Bitswap × List (PeerId × Message) :=
  let stats1 :=
    match alLookup s.stats p with
    | some st => alInsert s.stats p { st with outgoing := st.outgoing + m.blocks.length }
    | none => s.stats
  ({ s with stats := stats1 }, [(p, m)])

/-- `Bitswap::send_want_list`: if `wanted_blocks` is non-empty, build a
message wanting every locally wanted cid at priority 1 and emit it directly
(no ledger bookkeeping, no stats update); otherwise emit nothing. -/
def Bitswap.send_want_list (s : Bitswap) (p : PeerId) : List (PeerId × Message) :=
  if s.wanted_blocks.isEmpty then []
  else
    [(p, s.wanted_blocks.foldl (fun acc kv => acc.want_block kv.1 1) Message.init)]

/-- `Bitswap::handle_received_block`: deliver the block to every waiter
attached to its cid and drop the `wanted_blocks` entry, insert the cid into
every connected peer's queued `cancel` set, then fetch the peer's stats entry
(`.unwrap()` — `none` models the panic when it is absent; the spawned
block-store `put` and its stats update are outside the engine state). -/
def Bitswap.handle_received_block (s : Bitswap) (source : PeerId) (b : Block) :
    Option (Bitswap × List (ChanId × Block)) :=
  let deliveries := ((alLookup s.wanted_blocks b.cid).getD []).map (fun tx => (tx, b))
  let wb := alErase s.wanted_blocks b.cid
  let peers1 := s.connected_peers.map (fun pl => (pl.1, pl.2.cancel_block b.cid))
  match alLookup s.stats source with
  | none => none
  | some _ => some ({ s with wanted_blocks := wb, connected_peers := peers1 }, deliveries)

/-- The trailing block loop of `Bitswap::handle_incoming_message`:
`handle_received_block` on each received block in order. -/
def Bitswap.processBlocks (source : PeerId) :
    Bitswap → List Block → Option (Bitswap × List (ChanId × Block))
  | s, [] => some (s, [])
  | s, b :: rest =>
    match s.handle_received_block source b with
    | none => none
    | some (s1, outs) =>
      match Bitswap.processBlocks source s1 rest with
      | none => none
      | some (s2, outs2) => some (s2, outs ++ outs2)

/-- The want/cancel section of `Bitswap::handle_incoming_message` (the two
loops over `message.cancel` and the filtered `message.want`): remove each
cancelled cid from the ledger's `received_want_list`, then insert every
wanted `(cid, priority)` whose cid is not in `current_wantlist` and collect
those cids as `to_get` (the cids scheduled for a block-store lookup). -/
def Bitswap.incoming_ledger_update (ledger : Ledger) (current_wantlist : List Cid)
    (m : Message) : Ledger × List Cid :=
  let rw1 := m.cancel.foldl (fun acc c => alErase acc c) ledger.received_want_list
  let kept := m.want.filter (fun kv => kv.1 ∉ current_wantlist)
  let rw2 := kept.foldl (fun acc kv => alInsert acc kv.1 kv.2) rw1
  ({ ledger with received_want_list := rw2 }, kept.map Prod.fst)

/-- `Bitswap::handle_incoming_message`: look up the source's ledger
(`.expect("Peer without ledger?!")` — `none` models the panic), apply the
want/cancel section (`incoming_ledger_update`, with `current_wantlist`
computed before the update), then process the received blocks.  The scheduled
cids are returned; the spawned block-store lookup task re-posts a `Blocks`
event asynchronously. -/
def Bitswap.handle_incoming_message (s : Bitswap) (source : PeerId) (m : Message) :
    Option (Bitswap × List Cid × List (ChanId × Block)) :=
  let current_wantlist := s.local_wantlist
  match alLookup s.connected_peers source with
  | none => none
  | some ledger =>
    let r := Bitswap.incoming_ledger_update ledger current_wantlist m
    let s1 := { s with connected_peers := alInsert s.connected_peers source r.1 }
    match Bitswap.processBlocks source s1 m.blocks with
    | none => none
    | some (s2, outs) => some (s2, r.2, outs)

/-- `Bitswap::handle_event` (peer lifecycle arm of the loop): `Blocks` queues
the blocks on the peer's ledger and dispatches `ledger.send()` if non-empty
(`.expect("Peer without ledger?!")` — `none` models the panic when the ledger
is absent); `NewPeer` installs a fresh ledger and a default stats entry and
sends the wantlist snapshot; `DeadPeer` drops the ledger (stats retained);
a closed channel (`None`) is a no-op. -/
def Bitswap.handle_event (s : Bitswap) (evt : Option ProtocolEvent) :
    Option (Bitswap × List (PeerId × Message)) :=
  match evt with
  | some (.Blocks peer blocks) =>
    match alLookup s.connected_peers peer with
    | none => none
    | some ledger =>
      let l1 := blocks.foldl Ledger.add_block ledger
      let res := l1.send
      let s1 := { s with connected_peers := alInsert s.connected_peers peer res.2 }
      match res.1 with
      | some message => some (s1.send_message_to peer message)
      | none => some (s1, [])
  | some (.NewPeer p) =>
    let s1 := { s with
      connected_peers := alInsert s.connected_peers p Ledger.new,
      stats :=
        match alLookup s.stats p with
        | some _ => s.stats
        | none => alInsert s.stats p Stats.init }
    some (s1, s1.send_want_list p)
  | some (.DeadPeer p) =>
    some ({ s with connected_peers := alErase s.connected_peers p }, [])
  | none => some (s, [])

/-- `Bitswap::want_block`: queue the want on every connected peer's ledger and
attach the reply sender to `wanted_blocks[cid]`. -/
def Bitswap.want_block (s : Bitswap) (c : Cid) (p : Priority) (tx : ChanId) : Bitswap :=
  { s with
    connected_peers := s.connected_peers.map (fun pl => (pl.1, pl.2.want_block c p)),
    wanted_blocks := alInsert s.wanted_blocks c (((alLookup s.wanted_blocks c).getD []) ++ [tx]) }

/-- `Bitswap::cancel_block`: queue the cancel on every connected peer's
ledger, drop the `wanted_blocks` entry (waiters dropped undelivered) and
acknowledge `Ok(())` on the reply channel. -/
def Bitswap.cancel_block (s : Bitswap) (c : Cid) (tx : ChanId) : Bitswap × List Reply :=
  ({ s with
      connected_peers := s.connected_peers.map (fun pl => (pl.1, pl.2.cancel_block c)),
      wanted_blocks := alErase s.wanted_blocks c },
   [Reply.ack tx])

/-- `Bitswap::peer_wantlist`. -/
def Bitswap.peer_wantlist (s : Bitswap) (p : PeerId) : Option (List (Cid × Priority)) :=
  (alLookup s.connected_peers p).map Ledger.wantlist

/-- `Bitswap::peers`: keys of `connected_peers`. -/
def Bitswap.peers (s : Bitswap) : List PeerId :=
  s.connected_peers.map Prod.fst

/-- `Bitswap::stats` (the aggregation method; named apart from the field):
fold all per-peer stats with field-wise addition. -/
def Bitswap.total_stats (s : Bitswap) : Stats :=
  s.stats.foldl (fun acc kv => acc.add_assign kv.2) Stats.init

/-- `Bitswap::handle_control_command`: dispatch a control command; a closed
control channel (`None`) returns `Err(BitswapError::Closing)`. -/
def Bitswap.handle_control_command (s : Bitswap) (cmd : Option ControlCommand) :
    Except BitswapError (Bitswap × List Reply) :=
  match cmd with
  | some (.WantBlock c tx) => .ok (s.want_block c 1 tx, [])
  | some (.CancelBlock c tx) =>
    let r := s.cancel_block c tx
    .ok (r.1, r.2)
  | some (.WantList (some p) tx) =>
    .ok (s, [Reply.wantlist tx ((s.peer_wantlist p).getD [])])
  | some (.WantList none tx) =>
    .ok (s, [Reply.wantlist tx (s.local_wantlist.map (fun c => (c, (1 : Priority))))])
  | some (.Peers tx) => .ok (s, [Reply.peers tx s.peers])
  | some (.Stats tx) => .ok (s, [Reply.stats tx s.total_stats])
  | none => .error BitswapError.Closing

/-- One input drawn by the `select!` in `Bitswap::process_loop`: an item (or
channel closure, `none`) from one of the three event sources. -/
inductive LoopInput where
  | peerEvent (e : Option ProtocolEvent)
  | incoming (m : Option (PeerId × Message))
  | control (c : Option ControlCommand)
deriving DecidableEq, Repr

/-- Outcome of one iteration of `Bitswap::process_loop`. -/
inductive StepOutcome where
  | panicked
  | closed (e : BitswapError)
  | continuing (s : Bitswap)
deriving DecidableEq, Repr

/-- One iteration of `Bitswap::process_loop`: only the control arm uses `?`,
so only `handle_control_command`'s error can end the loop; the incoming arm
ignores a closed channel and the peer-event arm treats `None` as a no-op.
`panicked` records a `panic!`/`expect`/`unwrap` abort. -/
def Bitswap.process_step (s : Bitswap) (i : LoopInput) : StepOutcome :=
  match i with
  | .peerEvent e =>
    match s.handle_event e with
    | none => .panicked
    | some (s1, _) => .continuing s1
  | .incoming none => .continuing s
  | .incoming (some (src, m)) =>
    match s.handle_incoming_message src m with
    | none => .panicked
    | some (s1, _, _) => .continuing s1
  | .control c =>
    match s.handle_control_command c with
    | .error e => .closed e
    | .ok (s1, _) => .continuing s1

/-- A concrete engine state used by witness theorems: peer 0 connected with a
fresh ledger and stats entry, `blkA` wanted by channel 3. -/
def bsW : Bitswap :=
  { wanted_blocks := [(cidA, [3])],
    connected_peers := [(0, Ledger.new)],
    stats := [(0, Stats.init)] }

/-- A concrete incoming message used by witness theorems: wants `cidB`
(not locally wanted) and cancels `cidA`. -/
def msgW : Message := { Message.init with want := [(cidB, 4)], cancel := [cidA] }

-- Wire codec (`From<&Message> for Vec<u8>` / `TryFrom<&[u8]> for Message` in
-- `ledger.rs`).  The prost length-delimited byte serialisation of the
-- generated `bitswap_pb` structs is external library code and is lossless on
-- them, so the codec is modelled down to the protobuf-struct level.

/-- Modelled from the spec: canonical byte form of a CID (`cid.to_bytes()` of
the external `cid` crate, spec §3): the four prefix numbers followed by the
multihash digest. -/
def Cid.to_bytes (c : Cid) : List Nat :=
  [c.pre.version, c.pre.codec, c.pre.mhType, c.pre.mhLen] ++ c.digest

/-- Modelled from the spec: `Cid::try_from(bytes)` parses the canonical byte
form back; undecodable bytes fail with `InvalidData` (spec §4.1/§7). -/
def Cid.try_from (bs : List Nat) : Except BitswapError Cid :=
  match bs with
  | v :: co :: t :: n :: d =>
    .ok { pre := { version := v, codec := co, mhType := t, mhLen := n }, digest := d }
  | _ => .error BitswapError.InvalidData

/-- Modelled from the spec: `Prefix::from(&cid)` (`prefix.rs`). -/
def Pfx.from_cid (c : Cid) : Pfx := c.pre

/-- Modelled from the spec: `Prefix::to_bytes` — the four varint-encoded
numbers `version | codec | mh_type | mh_len` (spec §4.1). -/
def Pfx.to_bytes (p : Pfx) : List Nat := [p.version, p.codec, p.mhType, p.mhLen]

/-- Modelled from the spec: `Prefix::new(bytes)` parses the four numbers;
malformed prefix bytes fail with `InvalidData`. -/
def Pfx.new (bs : List Nat) : Except BitswapError Pfx :=
  match bs with
  | [v, co, t, n] => .ok { version := v, codec := co, mhType := t, mhLen := n }
  | _ => .error BitswapError.InvalidData

/-- Modelled from the spec: hashing `data` with multihash type `t` to length
`len` (spec §4.1).  The concrete hash function is external (the multihash
crate); any computable function of `(t, len, data)` models it. -/
def multihash (t len : Nat) (data : List Nat) : List Nat :=
  (List.range len).map (fun i => (data.foldl (fun a x => a + x) (t + i)) % 256)

/-- Modelled from the spec: `Prefix::to_cid(data)` — hash `data` per the
prefix's multihash spec and assemble a CID of the prefix's version and codec. -/
def Pfx.to_cid (p : Pfx) (data : List Nat) : Except BitswapError Cid :=
  .ok { pre := p, digest := multihash p.mhType p.mhLen data }

/-- Modelled from the spec: protobuf `Entry` of the wantlist
(`bitswap_pb.rs`, schema of spec §4.1). -/
structure PbEntry where
  block : List Nat
  priority : Int
  cancel : Bool
  wantType : Int
  sendDontHave : Bool
deriving DecidableEq, Repr

/-- `Entry::default()`. -/
def PbEntry.init : PbEntry :=
  { block := [], priority := 0, cancel := false, wantType := 0, sendDontHave := false }

/-- Modelled from the spec: protobuf `Wantlist`. -/
structure PbWantlist where
  entries : List PbEntry
  full : Bool
deriving DecidableEq, Repr

/-- Modelled from the spec: protobuf `Block` payload — prefix bytes plus
data bytes (`pfx` models the `prefix` field). -/
structure PbBlock where
  pfx : List Nat
  data : List Nat
deriving DecidableEq, Repr

/-- Modelled from the spec: protobuf `BlockPresence`; `ty` models the `type`
field (`Have = 0`, `DontHave = 1`). -/
structure PbBlockPresence where
  cid : List Nat
  ty : Int
deriving DecidableEq, Repr

/-- Modelled from the spec: the top-level protobuf `Message` struct. -/
structure PbMessage where
  wantlist : Option PbWantlist
  payload : List PbBlock
  blockPresences : List PbBlockPresence
  pendingBytes : Int
deriving DecidableEq, Repr

/-- A `want` wantlist entry as built by the encoder: `block = cid bytes`,
`priority = p`, rest `..Default::default()` (so `cancel = false`). -/
def wantEntryPb (kv : Cid × Priority) : PbEntry :=
  { PbEntry.init with block := Cid.to_bytes kv.1, priority := kv.2 }

/-- A `cancel` wantlist entry as built by the encoder: `block = cid bytes`,
`cancel = true`, rest `..Default::default()`. -/
def cancelEntryPb (c : Cid) : PbEntry :=
  { PbEntry.init with block := Cid.to_bytes c, cancel := true }

/-- A payload block as built by the encoder: prefix derived from the block's
cid, plus the data. -/
def blockPb (b : Block) : PbBlock :=
  PbBlock.mk (Pfx.to_bytes (Pfx.from_cid b.cid)) b.data

/-- `impl From<&Message> for Vec<u8>` (`ledger.rs`), down to the protobuf
struct: wantlist entries from `want` (cancel = false) then from `cancel`
(cancel = true); payload from `blocks`; the wantlist is set only when it has
entries; block presences are never emitted and the wantlist's `full` flag is
never touched (it stays `Wantlist::default()`, i.e. `false`). -/
def Message.to_pb (m : Message) : PbMessage :=
  let entries := m.want.map wantEntryPb ++ m.cancel.map cancelEntryPb
  { wantlist := if entries.isEmpty then none else some { entries := entries, full := false },
    payload := m.blocks.map blockPb,
    blockPresences := [],
    pendingBytes := 0 }

/-- The wantlist-entry loop of `TryFrom<&[u8]> for Message`: each entry's
`block` bytes are parsed into a cid (`?` propagates `InvalidData`), then
`cancel_block` or `want_block` is replayed. -/
def decodeEntries : Message → List PbEntry → Except BitswapError Message
  | m, [] => .ok m
  | m, e :: rest =>
    match Cid.try_from e.block with
    | .error err => .error err
    | .ok cid =>
      if e.cancel then decodeEntries (m.cancel_block cid) rest
      else decodeEntries (m.want_block cid e.priority) rest

/-- The block-presence loop of the decoder: `Have = 0` and `DontHave = 1`;
any other `type` value fails with `InvalidData`. -/
def decodePresences : Message → List PbBlockPresence → Except BitswapError Message
  | m, [] => .ok m
  | m, bp :: rest =>
    match Cid.try_from bp.cid with
    | .error err => .error err
    | .ok cid =>
      if bp.ty = 0 then decodePresences (m.have_block cid) rest
      else if bp.ty = 1 then decodePresences (m.dont_have_block cid) rest
      else .error BitswapError.InvalidData

/-- The payload loop of the decoder: parse the prefix, reconstruct the cid
from the prefix and the data's multihash, and append the block. -/
def decodePayloads : Message → List PbBlock → Except BitswapError Message
  | m, [] => .ok m
  | m, pl :: rest =>
    match Pfx.new pl.pfx with
    | .error err => .error err
    | .ok pfx =>
      match Pfx.to_cid pfx pl.data with
      | .error err => .error err
      | .ok cid => decodePayloads (m.add_block { cid := cid, data := pl.data }) rest

/-- `impl TryFrom<&[u8]> for Message` (`ledger.rs`), down to the protobuf
struct: start from `Message::default()`, replay the wantlist entries
(`wantlist.unwrap_or_default().entries`; the `full` flag is never read), then
the block presences, then the payloads. -/
def Message.from_pb (pb : PbMessage) : Except BitswapError Message :=
  match decodeEntries Message.init ((pb.wantlist.map PbWantlist.entries).getD []) with
  | .error err => .error err
  | .ok m1 =>
    match decodePresences m1 pb.blockPresences with
    | .error err => .error err
    | .ok m2 => decodePayloads m2 pb.payload

/-- A concrete message that is empty except for `full = true`. -/
def msgFull : Message := { Message.init with full := true }

-- Association-list lemmas.

theorem alLookup_alErase {α β : Type} [DecidableEq α] (l : List (α × β)) (a a' : α) :
    alLookup (alErase l a) a' = if a' = a then none else alLookup l a' := by
  induction l with
  | nil => simp [alLookup, alErase]
  | cons kv rest ih =>
    simp only [alErase, List.filter_cons, ne_eq, decide_not] at ih ⊢
    by_cases h1 : kv.1 = a
    · rw [if_neg (by simp [h1]), ih]
      by_cases h2 : a' = a
      · simp [h2]
      · have hne : ¬ kv.1 = a' := fun hh => h2 (hh ▸ h1)
        simp [alLookup, h2, hne]
    · rw [if_pos (by simp [h1])]
      by_cases h2 : kv.1 = a'
      · have h3 : ¬ a' = a := fun hh => h1 (h2.trans hh)
        simp [alLookup, h2, h3]
      · simp [alLookup, h2, ih]

theorem alLookup_append {α β : Type} [DecidableEq α] (l₁ l₂ : List (α × β)) (a : α) :
    alLookup (l₁ ++ l₂) a = optOr (alLookup l₁ a) (alLookup l₂ a) := by
  induction l₁ with
  | nil => simp [alLookup, optOr]
  | cons kv rest ih =>
    by_cases h : kv.1 = a <;> simp [alLookup, h, optOr, ih]

theorem alLookup_alInsert {α β : Type} [DecidableEq α] (l : List (α × β)) (a a' : α) (b : β) :
    alLookup (alInsert l a b) a' = if a' = a then some b else alLookup l a' := by
  have he := alLookup_alErase l a a'
  have hrw : alLookup (alInsert l a b) a' =
      optOr (alLookup (alErase l a) a') (alLookup [(a, b)] a') :=
    alLookup_append (alErase l a) [(a, b)] a'
  by_cases h2 : a' = a
  · subst h2
    rw [hrw, he, if_pos rfl, if_pos rfl]
    simp [alLookup, optOr]
  · rw [hrw, he, if_neg h2, if_neg h2]
    have h4 : ¬ a = a' := fun hh => h2 hh.symm
    have h3 : alLookup [(a, b)] a' = none := by
      simp [alLookup, h4]
    rw [h3]
    cases alLookup l a' <;> rfl

theorem alLookup_eq_none_of_not_mem {α β : Type} [DecidableEq α]
    (l : List (α × β)) (a : α) (h : a ∉ l.map Prod.fst) : alLookup l a = none := by
  induction l with
  | nil => rfl
  | cons kv rest ih =>
    simp only [List.map_cons, List.mem_cons] at h
    push_neg at h
    have h3 : ¬ kv.1 = a := fun hh => h.1 hh.symm
    simp [alLookup, h3, ih h.2]

theorem mem_setInsert {α : Type} [DecidableEq α] (l : List α) (a a' : α) :
    a' ∈ setInsert l a ↔ a' = a ∨ a' ∈ l := by
  by_cases h : a ∈ l
  · simp only [setInsert, h, if_true]
    constructor
    · exact fun hm => Or.inr hm
    · rintro (rfl | hm) <;> [exact h; exact hm]
  · simp [setInsert, h, or_comm]

theorem alLookup_foldl_erase {α β : Type} [DecidableEq α]
    (cs : List α) (s : List (α × β)) (a : α) :
    alLookup (cs.foldl (fun acc c => alErase acc c) s) a =
      if a ∈ cs then none else alLookup s a := by
  induction cs generalizing s with
  | nil => simp
  | cons c rest ih =>
    by_cases h : a = c
    · subst h
      simp [List.foldl, ih, alLookup_alErase]
    · simp [List.foldl, ih, alLookup_alErase, h]

theorem alLookup_foldl_insert {α β : Type} [DecidableEq α]
    (w : List (α × β)) (s : List (α × β)) (a : α)
    (hnd : (w.map Prod.fst).Nodup) :
    alLookup (w.foldl (fun acc kv => alInsert acc kv.1 kv.2) s) a =
      optOr (alLookup w a) (alLookup s a) := by
  induction w generalizing s with
  | nil => simp [alLookup, optOr]
  | cons kv rest ih =>
    simp only [List.map_cons, List.nodup_cons] at hnd
    simp only [List.foldl]
    rw [ih _ hnd.2, alLookup_alInsert]
    by_cases h : kv.1 = a
    · subst h
      have hrest : alLookup rest kv.1 = none :=
        alLookup_eq_none_of_not_mem rest kv.1 hnd.1
      simp [alLookup, hrest, optOr]
    · have h4 : ¬ a = kv.1 := fun hh => h hh.symm
      rw [if_neg h4]
      simp [alLookup, h]

theorem alInsert_keys_nodup {α β : Type} [DecidableEq α]
    (l : List (α × β)) (a : α) (b : β) (h : (l.map Prod.fst).Nodup) :
    ((alInsert l a b).map Prod.fst).Nodup := by
  simp only [alInsert, List.map_append, List.map_cons, List.map_nil]
  apply List.Nodup.append
  · exact (List.Nodup.sublist ((List.filter_sublist l).map Prod.fst) h)
  · simp
  · intro x hx hy
    simp only [List.mem_singleton] at hy
    subst hy
    simp only [List.mem_map] at hx
    obtain ⟨kv, hkv, hfst⟩ := hx
    have := List.of_mem_filter hkv
    simp [hfst] at this

-- Characterisation of a ledger after a sequence of want/cancel operations.

theorem applyOps_cancel_mem (ops : List LOp) (l : Ledger) (c : Cid) :
    c ∈ (l.applyOps ops).message.cancel ↔ LOp.cancel c ∈ ops ∨ c ∈ l.message.cancel := by
  induction ops generalizing l with
  | nil => simp [Ledger.applyOps]
  | cons op rest ih =>
    cases op with
    | want c' p =>
      simp only [Ledger.applyOps, List.foldl] at *
      rw [ih]
      simp [Ledger.applyOp, Ledger.want_block, Message.want_block]
    | cancel c' =>
      simp only [Ledger.applyOps, List.foldl] at *
      rw [ih]
      simp only [Ledger.applyOp, Ledger.cancel_block, Message.cancel_block]
      rw [mem_setInsert]
      constructor
      · rintro (h | (rfl | h))
        · exact Or.inl (List.mem_cons_of_mem _ h)
        · exact Or.inl (List.mem_cons_self _ _)
        · exact Or.inr h
      · rintro (h | h)
        · rcases List.mem_cons.mp h with h | h
          · exact Or.inr (Or.inl (by injection h))
          · exact Or.inl h
        · exact Or.inr (Or.inr h)

theorem isSome_alLookup_alInsert {α β : Type} [DecidableEq α]
    (l : List (α × β)) (a a' : α) (b : β) :
    (alLookup (alInsert l a b) a').isSome ↔ a' = a ∨ (alLookup l a').isSome := by
  rw [alLookup_alInsert]
  by_cases h : a' = a <;> simp [h]

theorem applyOps_want_isSome (ops : List LOp) (l : Ledger) (c : Cid) :
    (alLookup (l.applyOps ops).message.want c).isSome ↔
      (∃ p, LOp.want c p ∈ ops) ∨ (alLookup l.message.want c).isSome := by
  induction ops generalizing l with
  | nil => simp [Ledger.applyOps]
  | cons op rest ih =>
    cases op with
    | want c' p =>
      simp only [Ledger.applyOps, List.foldl] at *
      rw [ih]
      simp only [Ledger.applyOp, Ledger.want_block, Message.want_block]
      rw [isSome_alLookup_alInsert]
      constructor
      · rintro (⟨q, hq⟩ | hcc | hs)
        · exact Or.inl ⟨q, List.mem_cons_of_mem _ hq⟩
        · exact Or.inl ⟨p, by rw [hcc]; exact List.mem_cons_self _ _⟩
        · exact Or.inr hs
      · rintro (⟨q, hq⟩ | hs)
        · rcases List.mem_cons.mp hq with hh | hh
          · exact Or.inr (Or.inl (by cases hh; rfl))
          · exact Or.inl ⟨q, hh⟩
        · exact Or.inr (Or.inr hs)
    | cancel c' =>
      simp only [Ledger.applyOps, List.foldl] at *
      rw [ih]
      simp only [Ledger.applyOp, Ledger.cancel_block, Message.cancel_block]
      constructor
      · rintro (⟨q, hq⟩ | hs)
        · exact Or.inl ⟨q, List.mem_cons_of_mem _ hq⟩
        · exact Or.inr hs
      · rintro (⟨q, hq⟩ | hs)
        · rcases List.mem_cons.mp hq with hh | hh
          · exact absurd hh (by simp)
          · exact Or.inl ⟨q, hh⟩
        · exact Or.inr hs

theorem applyOps_want_nodup (ops : List LOp) (l : Ledger)
    (h : (l.message.want.map Prod.fst).Nodup) :
    ((l.applyOps ops).message.want.map Prod.fst).Nodup := by
  induction ops generalizing l with
  | nil => exact h
  | cons op rest ih =>
    cases op with
    | want c' p =>
      exact ih _ (alInsert_keys_nodup _ _ _ h)
    | cancel c' =>
      exact ih _ h

theorem applyOps_blocks (ops : List LOp) (l : Ledger) :
    (l.applyOps ops).message.blocks = l.message.blocks := by
  induction ops generalizing l with
  | nil => rfl
  | cons op rest ih =>
    cases op with
    | want c' p => exact ih _
    | cancel c' => exact ih _

/-- Pointwise characterisation of `Ledger::send`'s `sent_want_list` bookkeeping:
cancels are removed first, then wants are inserted, so a cid in both the
`want` map and the `cancel` set ends up present. -/
theorem ledger_send_sent_lookup (l : Ledger) (c : Cid)
    (hnd : (l.message.want.map Prod.fst).Nodup) :
    alLookup ((l.send).2).sent_want_list c =
      if l.message.is_empty then alLookup l.sent_want_list c
      else optOr (alLookup l.message.want c)
        (if c ∈ l.message.cancel then none else alLookup l.sent_want_list c) := by
  by_cases h : l.message.is_empty
  · simp [Ledger.send, h]
  · rw [if_neg h]
    have hs : (l.send).2.sent_want_list =
        l.message.want.foldl (fun acc kv => alInsert acc kv.1 kv.2)
          (l.message.cancel.foldl (fun acc c => alErase acc c) l.sent_want_list) := by
      simp [Ledger.send, h]
    rw [hs, alLookup_foldl_insert _ _ _ hnd, alLookup_foldl_erase]


theorem applyOps_sent (ops : List LOp) (l : Ledger) :
    (l.applyOps ops).sent_want_list = l.sent_want_list := by
  induction ops generalizing l with
  | nil => rfl
  | cons op rest ih => cases op <;> exact ih _

/-- C1 (amended): `want_block` and `cancel_block` insert independently, so the
queued message's `cancel` set and `want` map record exactly which operations
occurred since the last commit — a cid on which both a `want_block` and a
`cancel_block` were issued is simultaneously in both.  At `send()` the cancels
are removed from `sent_want_list` before the wants are inserted, so after a
fresh ledger processes any operation sequence and commits, a cid is in
`sent_want_list` exactly when some `want_block` on it occurred — even when a
`cancel_block` on it was the latest operation. -/
theorem c1_want_cancel_commit (ops : List LOp) (c : Cid) :
    (c ∈ (Ledger.new.applyOps ops).message.cancel ↔ LOp.cancel c ∈ ops)
    ∧ ((alLookup (Ledger.new.applyOps ops).message.want c).isSome ↔ ∃ p, LOp.want c p ∈ ops)
    ∧ alLookup ((Ledger.new.applyOps ops).send).2.sent_want_list c
        = alLookup (Ledger.new.applyOps ops).message.want c := by
  refine ⟨?_, ?_, ?_⟩
  · rw [applyOps_cancel_mem]
    simp [Ledger.new, Message.init]
  · rw [applyOps_want_isSome]
    simp [Ledger.new, Message.init, alLookup]
  · have hnd : (((Ledger.new.applyOps ops).message.want).map Prod.fst).Nodup :=
      applyOps_want_nodup ops Ledger.new (by simp [Ledger.new, Message.init])
    rw [ledger_send_sent_lookup _ _ hnd]
    have hsw : (Ledger.new.applyOps ops).sent_want_list = [] := by
      rw [applyOps_sent]; rfl
    by_cases h : (Ledger.new.applyOps ops).message.is_empty
    · rw [if_pos h, hsw]
      have hw : (Ledger.new.applyOps ops).message.want = [] := by
        have h2 := h
        simp only [Message.is_empty, Bool.and_eq_true, List.isEmpty_iff] at h2
        exact h2.1.1
      rw [hw]
    · rw [if_neg h, hsw]
      have hin : (if c ∈ (Ledger.new.applyOps ops).message.cancel then (none : Option Priority)
          else alLookup ([] : List (Cid × Priority)) c) = none := by
        split <;> rfl
      rw [hin]
      cases alLookup (Ledger.new.applyOps ops).message.want c <;> rfl

/-- C1 counterexample: on a fresh ledger, after `want_block cidA 1` followed by
`cancel_block cidA` (the cancel is the latest operation on `cidA`), `cidA` is
simultaneously in the queued message's `cancel` set and its `want` map, and
committing with `send()` leaves `cidA` present in `sent_want_list`. -/
theorem c1_counterexample :
    cidA ∈ (Ledger.new.applyOps [LOp.want cidA 1, LOp.cancel cidA]).message.cancel
    ∧ (alLookup (Ledger.new.applyOps [LOp.want cidA 1, LOp.cancel cidA]).message.want cidA).isSome = true
    ∧ alLookup ((Ledger.new.applyOps [LOp.want cidA 1, LOp.cancel cidA]).send).2.sent_want_list cidA
        = some 1 := by
  decide

/-- C6: `Ledger::send` returns `none` and changes nothing exactly when the
queued message is empty (`want`, `cancel` and `blocks` all empty — `haves` and
`dont_haves` do not count); otherwise it commits the queued message: every
cancelled cid is removed from `sent_want_list`, every queued want is inserted
(wants override cancels), the queued message itself is returned and the
ledger's queued message is left empty. -/
theorem c6_send_spec (l : Ledger) (hnd : ((l.message.want).map Prod.fst).Nodup) :
    ((l.send).1 = none ∧ (l.send).2 = l ↔
       l.message.want = [] ∧ l.message.cancel = [] ∧ l.message.blocks = [])
    ∧ (¬(l.message.want = [] ∧ l.message.cancel = [] ∧ l.message.blocks = []) →
        (l.send).1 = some l.message
        ∧ (l.send).2.message = Message.init
        ∧ (l.send).2.received_want_list = l.received_want_list
        ∧ ∀ c, alLookup (l.send).2.sent_want_list c =
            optOr (alLookup l.message.want c)
              (if c ∈ l.message.cancel then none else alLookup l.sent_want_list c)) := by
  have hemp : l.message.is_empty = true ↔
      (l.message.want = [] ∧ l.message.cancel = [] ∧ l.message.blocks = []) := by
    simp [Message.is_empty, Bool.and_eq_true, List.isEmpty_iff, and_assoc]
  constructor
  · constructor
    · rintro ⟨h1, _⟩
      by_cases h : l.message.is_empty
      · exact hemp.mp h
      · exfalso
        simp [Ledger.send, h] at h1
    · intro h
      have h2 : l.message.is_empty = true := hemp.mpr h
      simp [Ledger.send, h2]
  · intro h
    have hne : ¬ l.message.is_empty = true := fun hh => h (hemp.mp hh)
    refine ⟨by simp [Ledger.send, hne], by simp [Ledger.send, hne],
      by simp [Ledger.send, hne], ?_⟩
    intro c
    rw [ledger_send_sent_lookup l c hnd, if_neg hne]

/-- Witness for C6 at the concrete ledger `ledgerW`. -/
theorem c6_send_spec_witness :
    (((ledgerW.send).1 = none ∧ (ledgerW.send).2 = ledgerW ↔
       ledgerW.message.want = [] ∧ ledgerW.message.cancel = [] ∧ ledgerW.message.blocks = [])
    ∧ (¬(ledgerW.message.want = [] ∧ ledgerW.message.cancel = [] ∧ ledgerW.message.blocks = []) →
        (ledgerW.send).1 = some ledgerW.message
        ∧ (ledgerW.send).2.message = Message.init
        ∧ (ledgerW.send).2.received_want_list = ledgerW.received_want_list
        ∧ ∀ c, alLookup (ledgerW.send).2.sent_want_list c =
            optOr (alLookup ledgerW.message.want c)
              (if c ∈ ledgerW.message.cancel then none else alLookup ledgerW.sent_want_list c))) :=
  c6_send_spec ledgerW (by decide)

theorem alLookup_map_val {α β : Type} [DecidableEq α] (l : List (α × β)) (f : β → β) (a : α) :
    alLookup (l.map (fun pl => (pl.1, f pl.2))) a = (alLookup l a).map f := by
  induction l with
  | nil => rfl
  | cons kv rest ih =>
    by_cases h : kv.1 = a <;> simp [alLookup, h, ih]

theorem foldl_want_block_lookup (ws : List (Cid × List ChanId)) (m0 : Message) (c : Cid) :
    alLookup ((ws.foldl (fun acc kv => acc.want_block kv.1 1) m0)).want c
      = if c ∈ ws.map Prod.fst then some 1 else alLookup m0.want c := by
  induction ws generalizing m0 with
  | nil => simp
  | cons kv rest ih =>
    simp only [List.foldl, List.map_cons, List.mem_cons]
    rw [ih]
    by_cases h1 : c ∈ rest.map Prod.fst
    · simp [h1]
    · by_cases h2 : c = kv.1 <;>
        simp [h1, h2, Message.want_block, alLookup_alInsert]

theorem foldl_want_block_fields (ws : List (Cid × List ChanId)) (m0 : Message) :
    (ws.foldl (fun acc kv => acc.want_block kv.1 1) m0).cancel = m0.cancel
    ∧ (ws.foldl (fun acc kv => acc.want_block kv.1 1) m0).blocks = m0.blocks
    ∧ (ws.foldl (fun acc kv => acc.want_block kv.1 1) m0).full = m0.full := by
  induction ws generalizing m0 with
  | nil => exact ⟨rfl, rfl, rfl⟩
  | cons kv rest ih => exact ih _

/-- C3: after `handle_received_block` processes block `b` from any peer with a
stats entry (absence panics, see C9): the `wanted_blocks` entry for `b.cid`
is gone, a copy of `b` was sent to every reply channel that was attached to
it, and `b.cid` is in the queued `cancel` set of every connected peer's
ledger. -/
theorem c3_received_block (s : Bitswap) (source : PeerId) (b : Block)
    (h : (alLookup s.stats source).isSome) :
    ∃ s1 outs, s.handle_received_block source b = some (s1, outs)
      ∧ alLookup s1.wanted_blocks b.cid = none
      ∧ outs = ((alLookup s.wanted_blocks b.cid).getD []).map (fun tx => (tx, b))
      ∧ ∀ p l', (p, l') ∈ s1.connected_peers → b.cid ∈ l'.message.cancel := by
  obtain ⟨st, hst⟩ := Option.isSome_iff_exists.mp h
  simp only [Bitswap.handle_received_block, hst]
  refine ⟨_, _, rfl, ?_, rfl, ?_⟩
  · show alLookup (alErase s.wanted_blocks b.cid) b.cid = none
    rw [alLookup_alErase]
    simp
  · intro p l' hmem
    simp only [List.mem_map] at hmem
    obtain ⟨pl, hpl, heq⟩ := hmem
    have hl : pl.2.cancel_block b.cid = l' := by
      have h2 := congrArg Prod.snd heq
      simpa using h2
    subst hl
    exact (mem_setInsert _ _ _).mpr (Or.inl rfl)

/-- Witness for C3 at the concrete state `bsW` (peer 0, block `blkA`). -/
theorem c3_received_block_witness :
    (alLookup bsW.stats 0).isSome = true
    ∧ (∃ s1 outs, bsW.handle_received_block 0 blkA = some (s1, outs)
        ∧ alLookup s1.wanted_blocks blkA.cid = none
        ∧ outs = ((alLookup bsW.wanted_blocks blkA.cid).getD []).map (fun tx => (tx, blkA))
        ∧ ∀ p l', (p, l') ∈ s1.connected_peers → blkA.cid ∈ l'.message.cancel) :=
  ⟨by decide, c3_received_block bsW 0 blkA (by decide)⟩

/-- C4: after `Bitswap::cancel_block c`: `c` is absent from `wanted_blocks`
(waiters dropped without any delivery — the only output is the `Ok(())`
acknowledgement on the reply channel), and `c` is in the queued `cancel` set
of every connected peer's ledger. -/
theorem c4_cancel_block (s : Bitswap) (c : Cid) (tx : ChanId) :
    alLookup (s.cancel_block c tx).1.wanted_blocks c = none
    ∧ (∀ p l', (p, l') ∈ (s.cancel_block c tx).1.connected_peers → c ∈ l'.message.cancel)
    ∧ (s.cancel_block c tx).2 = [Reply.ack tx] := by
  refine ⟨?_, ?_, rfl⟩
  · show alLookup (alErase s.wanted_blocks c) c = none
    rw [alLookup_alErase]
    simp
  · intro p l' hmem
    simp only [Bitswap.cancel_block, List.mem_map] at hmem
    obtain ⟨pl, hpl, heq⟩ := hmem
    have hl : pl.2.cancel_block c = l' := by
      have h2 := congrArg Prod.snd heq
      simpa using h2
    subst hl
    exact (mem_setInsert _ _ _).mpr (Or.inl rfl)

/-- Witness for C4 at the concrete state `bsW` (cid `cidA`, reply channel 7). -/
theorem c4_cancel_block_witness :
    alLookup (bsW.cancel_block cidA 7).1.wanted_blocks cidA = none
    ∧ (∀ p l', (p, l') ∈ (bsW.cancel_block cidA 7).1.connected_peers → cidA ∈ l'.message.cancel)
    ∧ (bsW.cancel_block cidA 7).2 = [Reply.ack 7] :=
  c4_cancel_block bsW cidA 7

/-- C7: on `NewPeer p` the engine installs a fresh ledger for `p` (so
`ledger[p].sent_want_list` is empty immediately afterwards — the snapshot
bypasses `ledger.send()` bookkeeping); if `wanted_blocks` is non-empty it
emits exactly one message to `p` wanting exactly the locally wanted cids at
priority 1 with no cancels and no blocks, and if `wanted_blocks` is empty it
emits nothing. -/
theorem c7_new_peer (s : Bitswap) (p : PeerId) :
    ∃ s1 sent, s.handle_event (some (ProtocolEvent.NewPeer p)) = some (s1, sent)
      ∧ alLookup s1.connected_peers p = some Ledger.new
      ∧ (s.wanted_blocks = [] → sent = [])
      ∧ (s.wanted_blocks ≠ [] → ∃ msg, sent = [(p, msg)]
          ∧ (∀ c, alLookup msg.want c = if c ∈ s.local_wantlist then some 1 else none)
          ∧ msg.cancel = [] ∧ msg.blocks = []) := by
  simp only [Bitswap.handle_event]
  refine ⟨_, _, rfl, ?_, ?_, ?_⟩
  · show alLookup (alInsert s.connected_peers p Ledger.new) p = some Ledger.new
    rw [alLookup_alInsert]
    simp
  · intro h
    simp [Bitswap.send_want_list, h]
  · intro h
    have hne : ¬ s.wanted_blocks.isEmpty = true := fun hh => h (List.isEmpty_iff.mp hh)
    simp only [Bitswap.send_want_list, hne, if_false]
    refine ⟨_, rfl, ?_, ?_, ?_⟩
    · intro c
      rw [foldl_want_block_lookup]
      rfl
    · exact (foldl_want_block_fields _ _).1
    · exact (foldl_want_block_fields _ _).2.1

/-- Witness for C7 at the concrete state `bsW` (new peer 1). -/
theorem c7_new_peer_witness :
    ∃ s1 sent, bsW.handle_event (some (ProtocolEvent.NewPeer 1)) = some (s1, sent)
      ∧ alLookup s1.connected_peers 1 = some Ledger.new
      ∧ (bsW.wanted_blocks = [] → sent = [])
      ∧ (bsW.wanted_blocks ≠ [] → ∃ msg, sent = [(1, msg)]
          ∧ (∀ c, alLookup msg.want c = if c ∈ bsW.local_wantlist then some 1 else none)
          ∧ msg.cancel = [] ∧ msg.blocks = []) :=
  c7_new_peer bsW 1

/-- C8: one iteration of the engine loop ends with an error exactly when the
control channel is closed (the control receiver yields `None`), and that
error is `Closing`; handling any control command, peer event or incoming
message never ends the loop. -/
theorem c8_loop_termination (s : Bitswap) (i : LoopInput) (e : BitswapError) :
    s.process_step i = StepOutcome.closed e ↔
      i = LoopInput.control none ∧ e = BitswapError.Closing := by
  constructor
  · intro h
    cases i with
    | peerEvent ev =>
      exfalso
      simp only [Bitswap.process_step] at h
      rcases hE : s.handle_event ev with _ | ⟨s1, outs⟩ <;> rw [hE] at h <;> cases h
    | incoming msg =>
      exfalso
      rcases msg with _ | ⟨src, m⟩
      · cases h
      · simp only [Bitswap.process_step] at h
        rcases hE : s.handle_incoming_message src m with _ | ⟨s1, tg, outs⟩ <;>
          rw [hE] at h <;> cases h
    | control c =>
      rcases c with _ | cmd
      · have h2 : StepOutcome.closed BitswapError.Closing = StepOutcome.closed e := h
        injection h2 with h3
        exact ⟨rfl, h3.symm⟩
      · exfalso
        cases cmd with
        | WantBlock c' tx => simp [Bitswap.process_step, Bitswap.handle_control_command] at h
        | CancelBlock c' tx => simp [Bitswap.process_step, Bitswap.handle_control_command] at h
        | WantList po tx =>
          cases po <;> simp [Bitswap.process_step, Bitswap.handle_control_command] at h
        | Peers tx => simp [Bitswap.process_step, Bitswap.handle_control_command] at h
        | Stats tx => simp [Bitswap.process_step, Bitswap.handle_control_command] at h
  · rintro ⟨rfl, rfl⟩
    rfl

/-- An engine state with no connected peers and no stats entries. -/
def bsEmpty : Bitswap := { wanted_blocks := [], connected_peers := [], stats := [] }

/-- C9: a `Blocks(peer, _)` event or an incoming message from a source with no
ledger in `connected_peers` hits the `expect("Peer without ledger?!")` panic,
and block reception from a source with no stats entry hits the `unwrap()`
panic (all three modelled as `none`). -/
theorem c9_missing_entry_panics (s : Bitswap) (peer : PeerId) (bs : List Block)
    (m : Message) (b : Block) :
    (alLookup s.connected_peers peer = none →
        s.handle_event (some (ProtocolEvent.Blocks peer bs)) = none)
    ∧ (alLookup s.connected_peers peer = none →
        s.handle_incoming_message peer m = none)
    ∧ (alLookup s.stats peer = none →
        s.handle_received_block peer b = none) := by
  refine ⟨?_, ?_, ?_⟩
  · intro h
    simp [Bitswap.handle_event, h]
  · intro h
    simp [Bitswap.handle_incoming_message, h]
  · intro h
    simp [Bitswap.handle_received_block, h]

/-- Witness for C9: on the empty engine state every one of the three
accesses panics. -/
theorem c9_missing_entry_panics_witness :
    bsEmpty.handle_event (some (ProtocolEvent.Blocks 1 [blkA])) = none
    ∧ bsEmpty.handle_incoming_message 1 Message.init = none
    ∧ bsEmpty.handle_received_block 1 blkA = none :=
  ⟨(c9_missing_entry_panics bsEmpty 1 [blkA] Message.init blkA).1 rfl,
   (c9_missing_entry_panics bsEmpty 1 [blkA] Message.init blkA).2.1 rfl,
   (c9_missing_entry_panics bsEmpty 1 [blkA] Message.init blkA).2.2 rfl⟩

theorem alLookup_isSome_iff_mem {α β : Type} [DecidableEq α] (l : List (α × β)) (a : α) :
    (alLookup l a).isSome ↔ a ∈ l.map Prod.fst := by
  induction l with
  | nil => simp [alLookup]
  | cons kv rest ih =>
    by_cases h : kv.1 = a
    · subst h
      simp [alLookup]
    · have h2 : ¬ a = kv.1 := fun hh => h hh.symm
      simp [alLookup, h, ih, h2]

theorem alLookup_filter_not_mem (l : List (Cid × Priority)) (cw : List Cid) (c : Cid) :
    alLookup (l.filter (fun kv => kv.1 ∉ cw)) c
      = if c ∈ cw then none else alLookup l c := by
  induction l with
  | nil => simp [alLookup]
  | cons kv rest ih =>
    simp only [decide_not] at ih ⊢
    rw [List.filter_cons]
    by_cases h1 : kv.1 ∈ cw
    · rw [if_neg (by simp [h1]), ih]
      by_cases h2 : c ∈ cw
      · simp [h2]
      · have hne : ¬ kv.1 = c := fun hh => h2 (hh ▸ h1)
        simp [alLookup, hne, h2]
    · rw [if_pos (by simp [h1])]
      by_cases h2 : kv.1 = c
      · subst h2
        simp [alLookup, h1]
      · simp [alLookup, h2, ih]

theorem hrb_reduce (s : Bitswap) (source : PeerId) (b : Block) (st : Stats)
    (hst : alLookup s.stats source = some st) :
    s.handle_received_block source b =
      some (Bitswap.mk (alErase s.wanted_blocks b.cid)
              (s.connected_peers.map (fun pl => (pl.1, pl.2.cancel_block b.cid)))
              s.stats,
            ((alLookup s.wanted_blocks b.cid).getD []).map (fun tx => (tx, b))) := by
  simp [Bitswap.handle_received_block, hst]

theorem alLookup_map_cancel (l : List (PeerId × Ledger)) (c : Cid) (p : PeerId) :
    alLookup (l.map (fun pl => (pl.1, pl.2.cancel_block c))) p
      = (alLookup l p).map (fun le => le.cancel_block c) := by
  induction l with
  | nil => rfl
  | cons kv rest ih =>
    by_cases h : kv.1 = p <;> simp [alLookup, h, ih]

theorem processBlocks_spec (source : PeerId) (bs : List Block) : ∀ (s : Bitswap),
    (alLookup s.stats source).isSome →
    ∃ s2 outs, Bitswap.processBlocks source s bs = some (s2, outs)
      ∧ s2.stats = s.stats
      ∧ ∀ p, (alLookup s2.connected_peers p).map Ledger.received_want_list
            = (alLookup s.connected_peers p).map Ledger.received_want_list := by
  induction bs with
  | nil =>
    intro s h
    exact ⟨s, [], rfl, rfl, fun p => rfl⟩
  | cons b rest ih =>
    intro s h
    obtain ⟨st, hst⟩ := Option.isSome_iff_exists.mp h
    have hred := hrb_reduce s source b st hst
    have h2 : (alLookup (Bitswap.mk (alErase s.wanted_blocks b.cid)
        (s.connected_peers.map (fun pl => (pl.1, pl.2.cancel_block b.cid)))
        s.stats).stats source).isSome := h
    obtain ⟨s2, o2, hpb, hstats, hrwl⟩ := ih _ h2
    have hstats2 : s2.stats = s.stats := hstats
    refine ⟨s2, ((alLookup s.wanted_blocks b.cid).getD []).map (fun tx => (tx, b)) ++ o2,
      ?_, hstats2, ?_⟩
    · simp only [Bitswap.processBlocks, hred, hpb]
    · intro p
      rw [hrwl p]
      show (alLookup (s.connected_peers.map (fun pl => (pl.1, pl.2.cancel_block b.cid))) p).map
          Ledger.received_want_list = _
      rw [alLookup_map_cancel]
      cases alLookup s.connected_peers p <;> rfl

theorem him_reduce (s : Bitswap) (source : PeerId) (m : Message) (L : Ledger)
    (hL : alLookup s.connected_peers source = some L)
    (hstat : (alLookup s.stats source).isSome) :
    ∃ s2 outs,
      s.handle_incoming_message source m
        = some (s2, (Bitswap.incoming_ledger_update L s.local_wantlist m).2, outs)
      ∧ s2.stats = s.stats
      ∧ ∀ p, (alLookup s2.connected_peers p).map Ledger.received_want_list
          = (alLookup (alInsert s.connected_peers source
              (Bitswap.incoming_ledger_update L s.local_wantlist m).1) p).map
              Ledger.received_want_list := by
  obtain ⟨s2, o2, hpb, hst2, hrwl⟩ :=
    processBlocks_spec source m.blocks { s with connected_peers := alInsert s.connected_peers source (Bitswap.incoming_ledger_update L s.local_wantlist m).1 } hstat
  refine ⟨s2, o2, ?_, hst2, hrwl⟩
  simp only [Bitswap.handle_incoming_message, hL, hpb]

theorem ilu_rwl (L : Ledger) (cw : List Cid) (m : Message) (c : Cid)
    (hnd : (m.want.map Prod.fst).Nodup) :
    alLookup (Bitswap.incoming_ledger_update L cw m).1.received_want_list c =
      if (alLookup m.want c).isSome ∧ c ∉ cw then alLookup m.want c
      else if c ∈ m.cancel then none
      else alLookup L.received_want_list c := by
  have hkept : ((m.want.filter (fun kv => kv.1 ∉ cw)).map Prod.fst).Nodup :=
    List.Nodup.sublist ((List.filter_sublist m.want).map Prod.fst) hnd
  simp only [Bitswap.incoming_ledger_update]
  rw [alLookup_foldl_insert _ _ _ hkept, alLookup_foldl_erase, alLookup_filter_not_mem]
  by_cases hcw : c ∈ cw
  · simp [hcw, optOr]
  · cases hv : alLookup m.want c <;> simp [hcw, hv, optOr]

theorem ilu_sched (L : Ledger) (cw : List Cid) (m : Message) (c : Cid) :
    c ∈ (Bitswap.incoming_ledger_update L cw m).2 ↔
      (alLookup m.want c).isSome ∧ c ∉ cw := by
  simp only [Bitswap.incoming_ledger_update]
  rw [← alLookup_isSome_iff_mem, alLookup_filter_not_mem]
  by_cases hcw : c ∈ cw <;> simp [hcw]

/-- C5: when the engine handles an incoming message `(source, m)` (the source
has a ledger and a stats entry — absences panic, see C9): every cid in
`m.cancel` is removed from `ledger[source].received_want_list`; every
`(cid, priority)` in `m.want` with `cid` not in the local wantlist is
inserted (insertions happen after the removals); and a cid is scheduled for a
block-store lookup exactly when it is wanted by `m` and not locally wanted —
a locally wanted cid is never inserted and never looked up. -/
theorem c5_incoming_message (s : Bitswap) (source : PeerId) (m : Message) (L : Ledger)
    (hL : alLookup s.connected_peers source = some L)
    (hstat : (alLookup s.stats source).isSome)
    (hnd : (m.want.map Prod.fst).Nodup) :
    ∃ s2 to_get outs, s.handle_incoming_message source m = some (s2, to_get, outs)
      ∧ (∀ c, c ∈ to_get ↔ ((alLookup m.want c).isSome ∧ c ∉ s.local_wantlist))
      ∧ ∃ L2, alLookup s2.connected_peers source = some L2
          ∧ ∀ c, alLookup L2.received_want_list c =
              if (alLookup m.want c).isSome ∧ c ∉ s.local_wantlist then alLookup m.want c
              else if c ∈ m.cancel then none
              else alLookup L.received_want_list c := by
  obtain ⟨s2, outs, heq, hst2, hrwl⟩ := him_reduce s source m L hL hstat
  refine ⟨s2, _, outs, heq, ?_, ?_⟩
  · intro c
    exact ilu_sched L s.local_wantlist m c
  · have h1 := hrwl source
    rw [alLookup_alInsert, if_pos rfl] at h1
    cases hx : alLookup s2.connected_peers source with
    | none =>
      rw [hx] at h1
      simp at h1
    | some L2 =>
      rw [hx] at h1
      refine ⟨L2, rfl, ?_⟩
      intro c
      have h2 : L2.received_want_list =
          (Bitswap.incoming_ledger_update L s.local_wantlist m).1.received_want_list := by
        simpa using h1
      rw [h2, ilu_rwl L s.local_wantlist m c hnd]

/-- Witness for C5 at the concrete state `bsW` and message `msgW` (peer 0
wants `cidB`, cancels `cidA`; `cidA` is locally wanted). -/
theorem c5_incoming_message_witness :
    (alLookup bsW.connected_peers 0 = some Ledger.new
      ∧ (alLookup bsW.stats 0).isSome = true
      ∧ ((msgW.want.map Prod.fst).Nodup))
    ∧ (∃ s2 to_get outs, bsW.handle_incoming_message 0 msgW = some (s2, to_get, outs)
        ∧ (∀ c, c ∈ to_get ↔ ((alLookup msgW.want c).isSome ∧ c ∉ bsW.local_wantlist))
        ∧ ∃ L2, alLookup s2.connected_peers 0 = some L2
            ∧ ∀ c, alLookup L2.received_want_list c =
                if (alLookup msgW.want c).isSome ∧ c ∉ bsW.local_wantlist then alLookup msgW.want c
                else if c ∈ msgW.cancel then none
                else alLookup Ledger.new.received_want_list c) :=
  ⟨⟨by decide, by decide, by decide⟩,
   c5_incoming_message bsW 0 msgW Ledger.new (by decide) (by decide) (by decide)⟩

theorem cid_bytes_roundtrip (c : Cid) : Cid.try_from (Cid.to_bytes c) = .ok c := by
  cases c with
  | mk pre d => cases pre; rfl

theorem pfx_bytes_roundtrip (p : Pfx) : Pfx.new (Pfx.to_bytes p) = .ok p := by
  cases p; rfl

theorem wantlist_opt_entries (es : List PbEntry) :
    ((((if es.isEmpty then none else some { entries := es, full := false }) :
        Option PbWantlist).map PbWantlist.entries).getD []) = es := by
  cases es <;> rfl

theorem except_bind_ok {α β : Type} (a : α) (f : α → Except BitswapError β) :
    Except.bind (Except.ok a) f = f a := rfl

theorem decodeEntries_append (l1 l2 : List PbEntry) : ∀ m0 : Message,
    decodeEntries m0 (l1 ++ l2)
      = Except.bind (decodeEntries m0 l1) (fun m1 => decodeEntries m1 l2) := by
  induction l1 with
  | nil => intro m0; rfl
  | cons e rest ih =>
    intro m0
    simp only [List.cons_append, decodeEntries]
    cases hE : Cid.try_from e.block with
    | error err => rfl
    | ok cid => by_cases h : e.cancel <;> simp [h, ih]

theorem decodeEntries_want (ws : List (Cid × Priority)) : ∀ m0 : Message,
    decodeEntries m0 (ws.map wantEntryPb)
      = .ok (ws.foldl (fun m kv => m.want_block kv.1 kv.2) m0) := by
  induction ws with
  | nil => intro m0; rfl
  | cons kv rest ih =>
    intro m0
    simp only [List.map_cons, decodeEntries, wantEntryPb, PbEntry.init, cid_bytes_roundtrip]
    exact ih _

theorem decodeEntries_cancel (cs : List Cid) : ∀ m0 : Message,
    decodeEntries m0 (cs.map cancelEntryPb)
      = .ok (cs.foldl Message.cancel_block m0) := by
  induction cs with
  | nil => intro m0; rfl
  | cons c rest ih =>
    intro m0
    simp only [List.map_cons, decodeEntries, cancelEntryPb, PbEntry.init, cid_bytes_roundtrip]
    exact ih _

theorem decodePayloads_blocks (bs : List Block) : ∀ m0 : Message,
    (∀ b ∈ bs, Pfx.to_cid (Pfx.from_cid b.cid) b.data = Except.ok b.cid) →
    decodePayloads m0 (bs.map blockPb) = .ok (bs.foldl Message.add_block m0) := by
  induction bs with
  | nil => intro m0 _; rfl
  | cons b rest ih =>
    intro m0 hcons
    simp only [List.map_cons, decodePayloads, blockPb, pfx_bytes_roundtrip]
    rw [hcons b (by simp)]
    exact ih _ (fun b2 hb2 => hcons b2 (List.mem_cons_of_mem _ hb2))

theorem fold_want_block_fields (ws : List (Cid × Priority)) : ∀ m0 : Message,
    (ws.foldl (fun m kv => m.want_block kv.1 kv.2) m0).want
        = ws.foldl (fun acc kv => alInsert acc kv.1 kv.2) m0.want
    ∧ (ws.foldl (fun m kv => m.want_block kv.1 kv.2) m0).cancel = m0.cancel
    ∧ (ws.foldl (fun m kv => m.want_block kv.1 kv.2) m0).haves = m0.haves
    ∧ (ws.foldl (fun m kv => m.want_block kv.1 kv.2) m0).dont_haves = m0.dont_haves
    ∧ (ws.foldl (fun m kv => m.want_block kv.1 kv.2) m0).full = m0.full
    ∧ (ws.foldl (fun m kv => m.want_block kv.1 kv.2) m0).blocks = m0.blocks := by
  induction ws with
  | nil => intro m0; exact ⟨rfl, rfl, rfl, rfl, rfl, rfl⟩
  | cons kv rest ih => intro m0; exact ih (m0.want_block kv.1 kv.2)

theorem fold_cancel_block_fields (cs : List Cid) : ∀ m0 : Message,
    (cs.foldl Message.cancel_block m0).want = m0.want
    ∧ (cs.foldl Message.cancel_block m0).cancel = cs.foldl setInsert m0.cancel
    ∧ (cs.foldl Message.cancel_block m0).haves = m0.haves
    ∧ (cs.foldl Message.cancel_block m0).dont_haves = m0.dont_haves
    ∧ (cs.foldl Message.cancel_block m0).full = m0.full
    ∧ (cs.foldl Message.cancel_block m0).blocks = m0.blocks := by
  induction cs with
  | nil => intro m0; exact ⟨rfl, rfl, rfl, rfl, rfl, rfl⟩
  | cons c rest ih => intro m0; exact ih (m0.cancel_block c)

theorem fold_add_block_fields (bs : List Block) : ∀ m0 : Message,
    (bs.foldl Message.add_block m0).want = m0.want
    ∧ (bs.foldl Message.add_block m0).cancel = m0.cancel
    ∧ (bs.foldl Message.add_block m0).haves = m0.haves
    ∧ (bs.foldl Message.add_block m0).dont_haves = m0.dont_haves
    ∧ (bs.foldl Message.add_block m0).full = m0.full
    ∧ (bs.foldl Message.add_block m0).blocks = m0.blocks ++ bs := by
  induction bs with
  | nil => intro m0; exact ⟨rfl, rfl, rfl, rfl, rfl, by simp⟩
  | cons b rest ih =>
    intro m0
    obtain ⟨h1, h2, h3, h4, h5, h6⟩ := ih (m0.add_block b)
    refine ⟨h1, h2, h3, h4, h5, ?_⟩
    simp only [List.foldl_cons]
    rw [h6]
    simp [Message.add_block]

theorem alInsert_not_mem {α β : Type} [DecidableEq α] (l : List (α × β)) (a : α) (b : β)
    (h : a ∉ l.map Prod.fst) : alInsert l a b = l ++ [(a, b)] := by
  unfold alInsert
  congr 1
  apply List.filter_eq_self.mpr
  intro kv hkv
  simp only [ne_eq, decide_eq_true_eq]
  intro hh
  exact h (hh ▸ List.mem_map_of_mem Prod.fst hkv)

theorem foldl_alInsert_append (ws : List (Cid × Priority)) : ∀ s0 : List (Cid × Priority),
    (ws.map Prod.fst).Nodup → (∀ a ∈ ws.map Prod.fst, a ∉ s0.map Prod.fst) →
    ws.foldl (fun acc kv => alInsert acc kv.1 kv.2) s0 = s0 ++ ws := by
  induction ws with
  | nil => intro s0 _ _; simp
  | cons kv rest ih =>
    intro s0 hnd hdis
    simp only [List.map_cons, List.nodup_cons] at hnd
    simp only [List.foldl]
    rw [alInsert_not_mem s0 kv.1 kv.2 (hdis kv.1 (by simp))]
    rw [ih (s0 ++ [(kv.1, kv.2)]) hnd.2 (by
      intro a ha hmem
      simp only [List.map_append, List.mem_append] at hmem
      rcases hmem with h1 | h1
      · exact hdis a (by simp [ha]) h1
      · simp only [List.map_cons, List.map_nil, List.mem_singleton] at h1
        subst h1
        exact hnd.1 ha)]
    simp

theorem foldl_setInsert_append (cs : List Cid) : ∀ s0 : List Cid,
    cs.Nodup → (∀ a ∈ cs, a ∉ s0) → cs.foldl setInsert s0 = s0 ++ cs := by
  induction cs with
  | nil => intro s0 _ _; simp
  | cons c rest ih =>
    intro s0 hnd hdis
    simp only [List.nodup_cons] at hnd
    simp only [List.foldl]
    rw [show setInsert s0 c = s0 ++ [c] from by simp [setInsert, hdis c (by simp)]]
    rw [ih (s0 ++ [c]) hnd.2 (by
      intro a ha hmem
      rcases List.mem_append.mp hmem with h1 | h1
      · exact hdis a (List.mem_cons_of_mem _ ha) h1
      · simp only [List.mem_singleton] at h1
        subst h1
        exact hnd.1 ha)]
    simp

theorem message_eq_of_fields {a b : Message}
    (h1 : a.want = b.want) (h2 : a.cancel = b.cancel) (h3 : a.haves = b.haves)
    (h4 : a.dont_haves = b.dont_haves) (h5 : a.full = b.full) (h6 : a.blocks = b.blocks) :
    a = b := by
  cases a
  cases b
  simp_all

theorem decodeEntries_full (es : List PbEntry) : ∀ m0 m1 : Message,
    decodeEntries m0 es = .ok m1 → m1.full = m0.full := by
  induction es with
  | nil =>
    intro m0 m1 h
    injection h with h2
    rw [← h2]
  | cons e rest ih =>
    intro m0 m1 h
    simp only [decodeEntries] at h
    cases hE : Cid.try_from e.block with
    | error err =>
      rw [hE] at h
      cases h
    | ok cid =>
      by_cases hc : e.cancel
      · simp only [hE, if_pos hc] at h
        exact ih (m0.cancel_block cid) m1 h
      · simp only [hE, if_neg hc] at h
        exact ih (m0.want_block cid e.priority) m1 h

theorem decodePresences_full (bps : List PbBlockPresence) : ∀ m0 m1 : Message,
    decodePresences m0 bps = .ok m1 → m1.full = m0.full := by
  induction bps with
  | nil =>
    intro m0 m1 h
    injection h with h2
    rw [← h2]
  | cons bp rest ih =>
    intro m0 m1 h
    simp only [decodePresences] at h
    cases hE : Cid.try_from bp.cid with
    | error err =>
      rw [hE] at h
      cases h
    | ok cid =>
      by_cases h0 : bp.ty = 0
      · simp only [hE, if_pos h0] at h
        exact ih (m0.have_block cid) m1 h
      · by_cases h1 : bp.ty = 1
        · simp only [hE, if_neg h0, if_pos h1] at h
          exact ih (m0.dont_have_block cid) m1 h
        · simp only [hE, if_neg h0, if_neg h1] at h
          cases h

theorem decodePayloads_full (pls : List PbBlock) : ∀ m0 m1 : Message,
    decodePayloads m0 pls = .ok m1 → m1.full = m0.full := by
  induction pls with
  | nil =>
    intro m0 m1 h
    injection h with h2
    rw [← h2]
  | cons pl rest ih =>
    intro m0 m1 h
    simp only [decodePayloads] at h
    cases hE : Pfx.new pl.pfx with
    | error err =>
      rw [hE] at h
      cases h
    | ok pfx =>
      cases hE2 : Pfx.to_cid pfx pl.data with
      | error err =>
        simp only [hE, hE2] at h
        cases h
      | ok cid =>
        simp only [hE, hE2] at h
        exact ih (m0.add_block { cid := cid, data := pl.data }) m1 h

theorem from_pb_full (pb : PbMessage) (m2 : Message)
    (h : Message.from_pb pb = .ok m2) : m2.full = false := by
  simp only [Message.from_pb] at h
  cases h1 : decodeEntries Message.init ((pb.wantlist.map PbWantlist.entries).getD []) with
  | error err =>
    rw [h1] at h
    cases h
  | ok ma =>
    simp only [h1] at h
    cases h2 : decodePresences ma pb.blockPresences with
    | error err =>
      simp only [h2] at h
      cases h
    | ok mb =>
      simp only [h2] at h
      have e1 := decodeEntries_full _ _ _ h1
      have e2 := decodePresences_full _ _ _ h2
      have e3 := decodePayloads_full _ _ _ h
      rw [e3, e2, e1]
      rfl

theorem to_pb_wantlist_full_false (m : Message) :
    ∀ w, (Message.to_pb m).wantlist = some w → w.full = false := by
  intro w hwl
  simp only [Message.to_pb] at hwl
  by_cases hE : (m.want.map wantEntryPb ++ m.cancel.map cancelEntryPb).isEmpty
  · rw [if_pos hE] at hwl
    cases hwl
  · rw [if_neg hE] at hwl
    injection hwl with h2
    rw [← h2]

/-- C2 (amended): for every well-formed Message `m` whose `haves` and
`dont_haves` are empty, whose `full` flag is `false` (the flag is not
preserved by the codec — see the counterexample and C10), and whose blocks
each carry a cid consistent with their data (the cid equals the one
reconstructed from the emitted prefix and the data's multihash), decoding the
encoding of `m` yields exactly `m`. -/
theorem c2_roundtrip (m : Message)
    (hw : (m.want.map Prod.fst).Nodup)
    (hc : m.cancel.Nodup)
    (hh : m.haves = [])
    (hd : m.dont_haves = [])
    (hf : m.full = false)
    (hb : ∀ b ∈ m.blocks, Pfx.to_cid (Pfx.from_cid b.cid) b.data = Except.ok b.cid) :
    Message.from_pb (Message.to_pb m) = Except.ok m := by
  have he : (((Message.to_pb m).wantlist.map PbWantlist.entries).getD [])
      = m.want.map wantEntryPb ++ m.cancel.map cancelEntryPb := by
    simp only [Message.to_pb]
    exact wantlist_opt_entries _
  have hpay : (Message.to_pb m).payload = m.blocks.map blockPb := rfl
  have hpres : (Message.to_pb m).blockPresences = [] := rfl
  simp only [Message.from_pb, he, hpay, hpres]
  rw [decodeEntries_append, decodeEntries_want, except_bind_ok, decodeEntries_cancel]
  show decodePayloads (m.cancel.foldl Message.cancel_block
      (m.want.foldl (fun mm kv => mm.want_block kv.1 kv.2) Message.init))
      (m.blocks.map blockPb) = Except.ok m
  rw [decodePayloads_blocks m.blocks _ hb]
  refine congrArg Except.ok ?_
  obtain ⟨a1, a2, a3, a4, a5, a6⟩ := fold_add_block_fields m.blocks
    (m.cancel.foldl Message.cancel_block
      (m.want.foldl (fun mm kv => mm.want_block kv.1 kv.2) Message.init))
  obtain ⟨b1, b2, b3, b4, b5, b6⟩ := fold_cancel_block_fields m.cancel
    (m.want.foldl (fun mm kv => mm.want_block kv.1 kv.2) Message.init)
  obtain ⟨c1, c2, c3, c4, c5, c6⟩ := fold_want_block_fields m.want Message.init
  apply message_eq_of_fields
  · rw [a1, b1, c1, foldl_alInsert_append m.want Message.init.want hw (by simp [Message.init])]
    simp [Message.init]
  · rw [a2, b2, c2, foldl_setInsert_append m.cancel Message.init.cancel hc (by simp [Message.init])]
    simp [Message.init]
  · rw [a3, b3, c3, hh]
    exact rfl
  · rw [a4, b4, c4, hd]
    exact rfl
  · rw [a5, b5, c5, hf]
    exact rfl
  · rw [a6, b6, c6]
    simp [Message.init]

/-- C2 counterexample: `msgFull` (empty but `full = true`) satisfies all the
claim's hypotheses (no presences, all blocks consistent), yet decoding its
encoding yields the default message, which agrees with `msgFull` on every
unordered field (`want`, `cancel`, `haves`, `dont_haves`) and on `blocks`
but differs on `full` — so the round-trip is not the identity modulo the
order of unordered fields. -/
theorem c2_roundtrip_counterexample :
    msgFull.haves = [] ∧ msgFull.dont_haves = []
    ∧ (∀ b ∈ msgFull.blocks, Pfx.to_cid (Pfx.from_cid b.cid) b.data = Except.ok b.cid)
    ∧ Message.from_pb (Message.to_pb msgFull) = Except.ok Message.init
    ∧ Message.init.want = msgFull.want ∧ Message.init.cancel = msgFull.cancel
    ∧ Message.init.haves = msgFull.haves ∧ Message.init.dont_haves = msgFull.dont_haves
    ∧ Message.init.blocks = msgFull.blocks
    ∧ Message.init.full ≠ msgFull.full := by
  refine ⟨rfl, rfl, ?_, rfl, rfl, rfl, rfl, rfl, rfl, ?_⟩
  · intro b hb
    exact absurd hb (List.not_mem_nil b)
  · decide

/-- Witness for C2 (amended) at the concrete message `msgW`. -/
theorem c2_roundtrip_witness :
    ((msgW.want.map Prod.fst).Nodup ∧ msgW.cancel.Nodup ∧ msgW.haves = []
      ∧ msgW.dont_haves = [] ∧ msgW.full = false
      ∧ (∀ b ∈ msgW.blocks, Pfx.to_cid (Pfx.from_cid b.cid) b.data = Except.ok b.cid))
    ∧ Message.from_pb (Message.to_pb msgW) = Except.ok msgW :=
  ⟨⟨by decide, by decide, rfl, rfl, rfl, fun b hb => absurd hb (List.not_mem_nil b)⟩,
   c2_roundtrip msgW (by decide) (by decide) rfl rfl rfl
     (fun b hb => absurd hb (List.not_mem_nil b))⟩

/-- C10: the encoder never sets the wantlist's `full` flag (any emitted
wantlist has `full = false` regardless of the message's flag); the decoder
never reads it (decoding is invariant under changing it); hence the flag is
not preserved (any successful decode of an encoding has `full = false`); and
the `NewPeer` bootstrap snapshot goes out with `full = false`, both in the
message and in its encoding. -/
theorem c10_full_flag (m : Message) (pb : PbMessage) (wl : PbWantlist) (b : Bool)
    (s : Bitswap) (p q : PeerId) (msg : Message) :
    (∀ w, (Message.to_pb m).wantlist = some w → w.full = false)
    ∧ Message.from_pb { pb with wantlist := some { wl with full := b } }
        = Message.from_pb { pb with wantlist := some wl }
    ∧ (∀ m2, Message.from_pb (Message.to_pb m) = Except.ok m2 → m2.full = false)
    ∧ ((q, msg) ∈ s.send_want_list p →
        msg.full = false ∧ ∀ w, (Message.to_pb msg).wantlist = some w → w.full = false) := by
  refine ⟨to_pb_wantlist_full_false m, rfl, ?_, ?_⟩
  · intro m2 h
    exact from_pb_full _ _ h
  · intro hmem
    simp only [Bitswap.send_want_list] at hmem
    by_cases hE : s.wanted_blocks.isEmpty
    · rw [if_pos hE] at hmem
      cases hmem
    · rw [if_neg hE] at hmem
      simp only [List.mem_singleton] at hmem
      have hmsg : msg = s.wanted_blocks.foldl (fun acc kv => acc.want_block kv.1 1) Message.init := by
        have h2 := congrArg Prod.snd hmem
        simpa using h2
      subst hmsg
      refine ⟨?_, to_pb_wantlist_full_false _⟩
      exact (foldl_want_block_fields s.wanted_blocks Message.init).2.2

/-- Witness for C10 at concrete inputs (message `msgW`, its encoding with the
flag flipped, and the bootstrap snapshot of `bsW` for new peer 1). -/
theorem c10_full_flag_witness :
    (∀ w, (Message.to_pb msgW).wantlist = some w → w.full = false)
    ∧ Message.from_pb { Message.to_pb msgW with
        wantlist := some { PbWantlist.mk [] false with full := true } }
      = Message.from_pb { Message.to_pb msgW with wantlist := some (PbWantlist.mk [] false) }
    ∧ (∀ m2, Message.from_pb (Message.to_pb msgW) = Except.ok m2 → m2.full = false)
    ∧ ((1, Message.init.want_block cidA 1) ∈ bsW.send_want_list 1 →
        (Message.init.want_block cidA 1).full = false
        ∧ ∀ w, (Message.to_pb (Message.init.want_block cidA 1)).wantlist = some w →
            w.full = false) :=
  c10_full_flag msgW (Message.to_pb msgW) (PbWantlist.mk [] false) true bsW 1 1
    (Message.init.want_block cidA 1)
